import Mathlib

/-!
Verification development for the DaCe BLAS GER library node
(`dace/libraries/blas/nodes/ger.py`).

The file embeds, as executable Lean functions:

* the tiled streaming FPGA engine (`Expand_GER_FPGA_Streaming_RowTiles`):
  the nested map structure `i < n/nTile`, `j < m/mTile`, `ii < nTile`,
  `jj < mTile/vecWidthM`, the interstate branches `j == 0` (fill the
  `y_buf_row` buffer from the `_y` stream) and `ii == 0` (fill the
  `x_buf` tile from the `_x` stream), and the compute tasklet
  `outCon = A_con + x_con * y_con * a`;
* the whole-array pure reference expansion (`ExpandGerPure.make_sdfg`):
  its dimension and storage checks, the `alpha == 1` special-cased multiply
  tasklet, the zero-initialized accumulator with write-conflict-resolution
  addition, and the broadcast-index selection on `shape_c`;
* the arity-only `Ger.validate` method.

Numeric values are modelled over an arbitrary commutative ring `R`
(machine floating point is abstracted by exact arithmetic; every finite
float embeds into `ℚ`, an instance of `R`); concrete evaluations
instantiate `R := ℤ`.
-/

namespace GerModel

/-- State of the tiled streaming engine: read cursors into the three input
streams (each stream is consumed strictly in order, so a cursor fully
describes consumption), the on-chip buffers `y_buf_row` (written via the
`_y_buf_tile` connector) and `x_buf`, the emitted output stream, and an
instrumentation counter for Reuse-state (`j != 0`) reads of the `y` tile
buffer. -/
@[ext]
structure EngSt (R : Type) where
  yPos : Nat
  xPos : Nat
  aPos : Nat
  yBuf : Nat → R
  xBuf : Nat → R
  outS : List R
  reuseReads : Nat

variable {R : Type} [CommRing R]

/-- Copy a `w`-wide vector, read from stream `src` at cursor `sp`, into a
buffer at offset `p` (the `read_x_state` tasklet writing `_x_buf_unroll`
at `jj * vecWidthM`). -/
def writeVec (buf : Nat → R) (p w : Nat) (src : List R) (sp : Nat) : Nat → R :=
  fun ch => if p ≤ ch ∧ ch < p + w then src.getD (sp + (ch - p)) 0 else buf ch

/-- Static configuration and input streams of one engine invocation:
`w` = `vecWidthM`, `q` = `mTile / vecWidthM` (inner trip count),
`nT` = `nTile`, `mB` = `m / mTile` (column-tile count),
`nB` = `n / nTile` (row-block count), `alpha` = the symbol `a`,
and the three input streams `_y`, `_x`, `_A`. -/
structure Cfg (R : Type) where
  w : Nat
  q : Nat
  nT : Nat
  mB : Nat
  nB : Nat
  alpha : R
  yS : List R
  xS : List R
  aS : List R

/-- Body of the innermost map (`innerCompute_map`, index `jj`), one run of
the nested `vectorize_inner_graph` SDFG (`make_unrolledCompute`): when
`ii == 0` the `readX_state` pops one `vecWidthM`-wide slice from the `_x`
stream into `x_buf` at `jj * vecWidthM` (otherwise `readEmpty_state` does
nothing); then `compute_state` pops one slice of `_A` and runs the tasklet
`outCon = A_con + x_con * y_con * a` lanewise, reading `x_buf` at
`jj * vecWidthM + lane` and the `y` buffer at `ii`; `streamOut_state`
pushes the result slice. -/
def innerBody (c : Cfg R) (j ii : Nat) (s : EngSt R) (jj : Nat) : EngSt R :=
  let s1 := if ii = 0 then
      { s with xBuf := writeVec s.xBuf (jj * c.w) c.w c.xS s.xPos,
               xPos := s.xPos + c.w }
    else s
  { s1 with
    aPos := s1.aPos + c.w,
    outS := s1.outS ++ (List.range c.w).map (fun k =>
      c.aS.getD (s1.aPos + k) 0 + s1.xBuf (jj * c.w + k) * s1.yBuf ii * c.alpha),
    reuseReads := s1.reuseReads + (if j = 0 then 0 else 1) }

/-- Body of `outerCompute_map` (index `ii`), one run of the nested
`tile_sdfg` (`make_computeTileRowStreamed`): the interstate edge `j == 0`
selects `read_y_reduceTile`, which pops one scalar from the `_y` stream and
stores it into the `y` tile buffer at index `ii`; `j != 0` selects
`read_empty_reduceTile` (no stream read, buffer retained). Then
`copmute_state_tile` runs the inner map over `jj < mTile / vecWidthM`. -/
def iiBody (c : Cfg R) (j : Nat) (s : EngSt R) (ii : Nat) : EngSt R :=
  let s1 := if j = 0 then
      { s with yBuf := Function.update s.yBuf ii (c.yS.getD s.yPos 0),
               yPos := s.yPos + 1 }
    else s
  (List.range c.q).foldl (innerBody c j ii) s1

/-- Body of `mTile_map` (index `j`): the map over `ii < nTile`. -/
def jBody (c : Cfg R) (s : EngSt R) (j : Nat) : EngSt R :=
  (List.range c.nT).foldl (iiBody c j) s

/-- Body of `nBlock_map` (one row-block): the map over `j < m / mTile`.
The row-block index `i` appears in no memlet or condition of the source
graph; all progress is carried by the stream cursors. -/
def iBody (c : Cfg R) (s : EngSt R) : EngSt R :=
  (List.range c.mB).foldl (jBody c) s

/-- Initial engine state: all cursors at zero, buffers zero-initialized,
nothing emitted. -/
def engInit : EngSt R :=
  { yPos := 0, xPos := 0, aPos := 0,
    yBuf := fun _ => 0, xBuf := fun _ => 0, outS := [], reuseReads := 0 }

/-- State after `k` complete row-blocks. -/
def engineBlocks (c : Cfg R) (k : Nat) : EngSt R :=
  (List.range k).foldl (fun s _ => iBody c s) engInit

/-- One complete engine invocation: all `n / nTile` row-blocks. -/
def engineRun (c : Cfg R) : EngSt R := engineBlocks c c.nB

/-- The tiled streaming expansion (`Expand_GER_FPGA_Streaming_RowTiles.make_sdfg`)
with the loop bounds of the source maps: `0:n/nTile`, `0:m/mTile`,
`0:nTile`, `0:mTile/vecWidthM`. -/
def gerEngine (n m nT mT w : Nat) (alpha : R) (yS xS aS : List R) : EngSt R :=
  engineRun { w := w, q := mT / w, nT := nT, mB := m / mT, nB := n / nT,
              alpha := alpha, yS := yS, xS := xS, aS := aS }

/-- State after `i` complete row-blocks and then `j` complete column-tiles
of row-block `i` (a prefix of the engine run, used to state the buffering
protocol invariants). -/
def blockTiles (c : Cfg R) (i j : Nat) : EngSt R :=
  (List.range j).foldl (jBody c) (engineBlocks c i)

/-- Modelled from the spec: the row-tiled serialization order of the matrix
stream produced by `StreamReadMatrixFull`/`StreamWriteMatrixFull`
(`tileByRow=True`), whose implementation is not part of the reviewed
sources. Spec §3: outer loop over `n/rowTile` row-blocks, middle loop over
`m/colTile` column-tiles, inner loop over `rowTile` rows, each row-tile
chunk carrying `colTile` contiguous elements. -/
def tileSerialize (nB mB nT mT : Nat) (A : Nat → Nat → R) : List R :=
  (List.range nB).flatMap fun i => (List.range mB).flatMap fun j =>
    (List.range nT).flatMap fun ii => (List.range mT).map fun t =>
      A (i * nT + ii) (j * mT + t)

/-- Modelled from the spec: the stream position at which matrix entry
(`r`, `cl`) sits in the row-tiled serialization order of §3 (the inverse
of `tileSerialize`); de-serializing the output stream reads position
`deserPos` for entry (`r`, `cl`). -/
def deserPos (mB nT mT : Nat) (r cl : Nat) : Nat :=
  ((r / nT * mB + cl / mT) * nT + r % nT) * mT + cl % mT

/-- Modelled from the spec: the `x` input stream produced by
`StreamReadVector` with `repeat = n/nTile` (spec §3: `x` is re-streamed in
full for every row-block); the adapter implementation is not part of the
reviewed sources. -/
def repeatStream (k : Nat) (x : List R) : List R :=
  (List.range k).flatMap fun _ => x

/-! ### Whole-array pure reference expansion (`ExpandGerPure.make_sdfg`) -/

/-- Pre-graph configuration errors of `ExpandGerPure.make_sdfg`:
`dimErr` is the `SyntaxError("Vectors must have single dimension")` raised
when `len(shape_x) != 1 or len(shape_y) != 1`; `storageErr` is the
`ValueError("Input vectors must have same storage.")` raised when the two
outer arrays' storage classes differ. -/
inductive PureErr where
  | dimErr
  | storageErr
deriving DecidableEq

/-- Whether an expansion check failed. -/
def isErr : Except PureErr Unit → Bool
  | Except.error _ => true
  | Except.ok _ => false

/-- The two checks at the top of `ExpandGerPure.make_sdfg`, in source
order: first the single-dimension check on `shape_x`/`shape_y`, then the
storage-class comparison of the two outer arrays (storage classes are
abstracted as natural-number codes). Both run before any graph node is
added. -/
def pureShapeChecks (shapeX shapeY : List Nat) (storX storY : Nat) :
    Except PureErr Unit :=
  if shapeX.length ≠ 1 ∨ shapeY.length ≠ 1 then Except.error PureErr.dimErr
  else if storX ≠ storY then Except.error PureErr.storageErr
  else Except.ok ()

/-- The multiply tasklet of the outer-product map: `__out = __x * __y`
when `node.alpha == 1.0`, else `__out = alpha * __x * __y`. -/
def mulProgram [DecidableEq R] (alpha xv yv : R) : R :=
  if alpha = 1 then xv * yv else alpha * xv * yv

/-- The accumulator entry at (`i0`, `i1`): the init map writes `0`, the
outer-product map adds `mulProgram` via the write-conflict resolution
`lambda x, y: x + y`. -/
def gerPureTmp [DecidableEq R] (alpha : R) (x y : List R) (i0 i1 : Nat) : R :=
  0 + mulProgram alpha (x.getD i0 0) (y.getD i1 0)

/-- The result entry of the pure expansion's addition map:
`__res = __A + __tmp`, with `__A` read at the selected memlet index
(always `__i0, __i1`, see `pureBroadcastChoice`). Note the source binds
`M, N = shape_x[0], shape_y[0]`: rows are indexed by `x`, columns by `y`. -/
def gerPureRes [DecidableEq R] (alpha : R) (x y : List R)
    (A : Nat → Nat → R) (i0 i1 : Nat) : R :=
  A i0 i1 + gerPureTmp alpha x y i0 i1

/-- The four broadcast-index choices of the `# manually broadcasting C to
[M, N]` block. -/
inductive BroadcastIdx where
  | full
  | bcastRow
  | bcastCol
  | bcastVec
deriving DecidableEq

/-- The broadcast selection chain of `ExpandGerPure.make_sdfg` lines
120-130, in source elif order: `[M, N]` selects `__i0, __i1`; `[1, N]`
selects `0, __i1`; `[M, 1]` selects `__i0, 0`; `[N]` selects `__i1`;
anything else raises
`ValueError("Could not broadcast input _res to (M, N)")`. -/
def broadcastMemletIdx (shapeC : List Nat) (M N : Nat) :
    Except String BroadcastIdx :=
  if shapeC = [M, N] then Except.ok BroadcastIdx.full
  else if shapeC = [1, N] then Except.ok BroadcastIdx.bcastRow
  else if shapeC = [M, 1] then Except.ok BroadcastIdx.bcastCol
  else if shapeC = [N] then Except.ok BroadcastIdx.bcastVec
  else Except.error "Could not broadcast input _res"

/-- Line 55 of the source: `shape_c = (M, N)`, computed from the vector
lengths, not from the supplied `_A` operand. -/
def pureShapeC (M N : Nat) : List Nat := [M, N]

/-- The broadcast selection as actually invoked by `make_sdfg`: the
argument inspected is `pureShapeC M N`, never the shape of the supplied
`_A` input. -/
def pureBroadcastChoice (M N : Nat) : Except String BroadcastIdx :=
  broadcastMemletIdx (pureShapeC M N) M N

/-! ### `Ger.validate` -/

/-- `Ger.validate`: an input edge is its destination connector name with
the squeezed subset size; an output edge is its squeezed size. The source
checks `len(in_edges) != 3`, then `len(out_edges) != 1` (twice — the check
is duplicated verbatim in the source); every shape comparison in the body
is commented out, so the extracted sizes are never consulted. -/
def gerValidate (inEdges : List (String × List Nat))
    (outEdges : List (List Nat)) : Except String Unit :=
  if inEdges.length ≠ 3 then
    Except.error "Expected exactly three inputs to the ger operation"
  else if outEdges.length ≠ 1 then
    Except.error "Expected exactly one output from the ger operation"
  else if outEdges.length ≠ 1 then
    Except.error "Expected exactly one output from ger rank 1 operation."
  else Except.ok ()

/-! ### List helper lemmas -/

theorem encode_lt {i a t b : Nat} (hi : i < a) (ht : t < b) :
    i * b + t < a * b := by
  calc i * b + t < i * b + b := by omega
    _ = (i + 1) * b := by ring
    _ ≤ a * b := Nat.mul_le_mul_right b (by omega)

theorem getD_range_map (b : Nat) (f : Nat → R) (t : Nat) (ht : t < b) :
    ((List.range b).map f).getD t 0 = f t := by
  rw [List.getD_eq_getElem _ _ (by simpa using ht)]
  simp

theorem length_flatMap_const (a L : Nat) (f : Nat → List R)
    (h : ∀ i < a, (f i).length = L) :
    ((List.range a).flatMap f).length = a * L := by
  induction a with
  | zero => simp
  | succ a ih =>
    rw [List.range_succ, List.flatMap_append]
    simp only [List.length_append, List.flatMap_cons, List.flatMap_nil,
      List.append_nil]
    rw [ih (fun i hi => h i (by omega)), h a (by omega)]
    ring

theorem getD_flatMap_const (a L : Nat) (f : Nat → List R)
    (h : ∀ i < a, (f i).length = L) (i t : Nat) (hi : i < a) (ht : t < L) :
    ((List.range a).flatMap f).getD (i * L + t) 0 = (f i).getD t 0 := by
  induction a with
  | zero => omega
  | succ a ih =>
    rw [List.range_succ, List.flatMap_append]
    simp only [List.flatMap_cons, List.flatMap_nil, List.append_nil]
    rcases Nat.lt_or_ge i a with hia | hia
    · rw [List.getD_append]
      · exact ih (fun i' hi' => h i' (by omega)) hia
      · rw [length_flatMap_const a L f (fun i' hi' => h i' (by omega))]
        exact encode_lt hia ht
    · have hie : i = a := by omega
      subst hie
      rw [List.getD_append_right]
      · rw [length_flatMap_const i L f (fun i' hi' => h i' (by omega))]
        congr 1
        omega
      · rw [length_flatMap_const i L f (fun i' hi' => h i' (by omega))]
        omega

theorem range_flatMap_congr {a : Nat} {f g : Nat → List R}
    (h : ∀ i < a, f i = g i) :
    (List.range a).flatMap f = (List.range a).flatMap g := by
  induction a with
  | zero => simp
  | succ a ih =>
    rw [List.range_succ, List.flatMap_append, List.flatMap_append,
      ih (fun i hi => h i (by omega))]
    simp [h a (by omega)]

theorem range_map_congr {a : Nat} {f g : Nat → R} (h : ∀ i < a, f i = g i) :
    (List.range a).map f = (List.range a).map g :=
  List.map_congr_left (fun i hi => h i (List.mem_range.mp hi))

/-! ### Closed forms for the engine's loop levels -/

theorem writeVec_in {buf : Nat → R} {p w : Nat} {src : List R} {sp ch : Nat}
    (h1 : p ≤ ch) (h2 : ch < p + w) :
    writeVec buf p w src sp ch = src.getD (sp + (ch - p)) 0 := by
  simp [writeVec, h1, h2]

theorem writeVec_out {buf : Nat → R} {p w : Nat} {src : List R} {sp ch : Nat}
    (h : ch < p ∨ p + w ≤ ch) :
    writeVec buf p w src sp ch = buf ch := by
  unfold writeVec
  rw [if_neg]
  omega

/-- One step of the innermost map at `ii = 0`: one `x` slice copied, one
`A` slice consumed and one result slice emitted; the lanes read the `x`
values just written. -/
theorem innerBody_zero_eq (c : Cfg R) (j jj : Nat) (s : EngSt R) :
    innerBody c j 0 s jj =
      { yPos := s.yPos,
        xPos := s.xPos + c.w,
        aPos := s.aPos + c.w,
        yBuf := s.yBuf,
        xBuf := writeVec s.xBuf (jj * c.w) c.w c.xS s.xPos,
        outS := s.outS ++ (List.range c.w).map (fun k =>
          c.aS.getD (s.aPos + k) 0 + c.xS.getD (s.xPos + k) 0 * s.yBuf 0
            * c.alpha),
        reuseReads := s.reuseReads + (if j = 0 then 0 else 1) } := by
  unfold innerBody
  simp only [reduceIte]
  refine EngSt.ext ?_ ?_ ?_ ?_ ?_ ?_ ?_
  · rfl
  · rfl
  · rfl
  · rfl
  · rfl
  · show s.outS ++ _ = s.outS ++ _
    congr 1
    apply range_map_congr
    intro k hk
    have hx : writeVec s.xBuf (jj * c.w) c.w c.xS s.xPos (jj * c.w + k)
        = c.xS.getD (s.xPos + k) 0 := by
      rw [writeVec_in (by omega) (by omega)]
      congr 1
      omega
    rw [hx]
  · rfl

/-- One step of the innermost map at `ii ≠ 0`: no `x`-stream read; the
retained `x_buf` and `y_buf[ii]` feed the compute tasklet. -/
theorem innerBody_pos_eq (c : Cfg R) (j ii jj : Nat) (s : EngSt R)
    (hii : ii ≠ 0) :
    innerBody c j ii s jj =
      { s with
        aPos := s.aPos + c.w,
        outS := s.outS ++ (List.range c.w).map (fun k =>
          c.aS.getD (s.aPos + k) 0 + s.xBuf (jj * c.w + k) * s.yBuf ii
            * c.alpha),
        reuseReads := s.reuseReads + (if j = 0 then 0 else 1) } := by
  unfold innerBody
  simp only [if_neg hii]

/-- Closed form of the inner (`jj`) fold when `ii = 0`: `p` slices of `x`
are copied into `x_buf`, `p` slices of `A` are consumed, and `p` result
slices are emitted, each lane computing
`A + x_buf[jj*w + k] * y_buf[0] * alpha`. -/
theorem innerFold0_eq (c : Cfg R) (j : Nat) (s : EngSt R) (p : Nat) :
    (List.range p).foldl (innerBody c j 0) s =
      { yPos := s.yPos,
        xPos := s.xPos + p * c.w,
        aPos := s.aPos + p * c.w,
        yBuf := s.yBuf,
        xBuf := fun ch => if ch < p * c.w then c.xS.getD (s.xPos + ch) 0
          else s.xBuf ch,
        outS := s.outS ++ (List.range (p * c.w)).map (fun t =>
          c.aS.getD (s.aPos + t) 0 + c.xS.getD (s.xPos + t) 0 * s.yBuf 0
            * c.alpha),
        reuseReads := s.reuseReads + (if j = 0 then 0 else p) } := by
  induction p with
  | zero =>
    refine EngSt.ext ?_ ?_ ?_ ?_ ?_ ?_ ?_
    · rfl
    · simp
    · simp
    · rfl
    · funext ch
      simp
    · simp
    · simp
  | succ p ih =>
    rw [List.range_succ, List.foldl_append, ih]
    simp only [List.foldl_cons, List.foldl_nil]
    rw [innerBody_zero_eq]
    have hsplit : (p + 1) * c.w = p * c.w + c.w := by ring
    refine EngSt.ext ?_ ?_ ?_ ?_ ?_ ?_ ?_
    · rfl
    · show s.xPos + p * c.w + c.w = s.xPos + (p + 1) * c.w
      omega
    · show s.aPos + p * c.w + c.w = s.aPos + (p + 1) * c.w
      omega
    · rfl
    · funext ch
      show writeVec
          (fun ch => if ch < p * c.w then c.xS.getD (s.xPos + ch) 0
            else s.xBuf ch)
          (p * c.w) c.w c.xS (s.xPos + p * c.w) ch
        = if ch < (p + 1) * c.w then c.xS.getD (s.xPos + ch) 0 else s.xBuf ch
      rcases Nat.lt_or_ge ch (p * c.w) with h | h
      · rw [writeVec_out (Or.inl h)]
        rw [if_pos h, if_pos (show ch < (p + 1) * c.w by omega)]
      · rcases Nat.lt_or_ge ch ((p + 1) * c.w) with h2 | h2
        · rw [writeVec_in h (show ch < p * c.w + c.w by omega)]
          have hidx : s.xPos + p * c.w + (ch - p * c.w) = s.xPos + ch := by
            omega
          rw [hidx, if_pos h2]
        · rw [writeVec_out (Or.inr (show p * c.w + c.w ≤ ch by omega))]
          rw [if_neg (show ¬ ch < p * c.w by omega),
            if_neg (show ¬ ch < (p + 1) * c.w by omega)]
    · show s.outS ++ _ ++ _ = s.outS ++ _
      rw [hsplit, List.range_add, List.map_append, List.map_map,
        List.append_assoc]
      congr 2
      apply range_map_congr
      intro k hk
      simp only [Function.comp_apply, Nat.add_assoc]
    · show s.reuseReads + _ + _ = s.reuseReads + _
      rcases eq_or_ne j 0 with hj | hj <;> simp [hj] <;> omega

/-- Closed form of the inner (`jj`) fold when `ii ≠ 0`: no `x`-stream
read; `p` slices of `A` are consumed and `p` result slices emitted, each
lane reading the retained `x_buf` and `y_buf[ii]`. -/
theorem innerFoldPos_eq (c : Cfg R) (j ii : Nat) (s : EngSt R) (p : Nat)
    (hii : ii ≠ 0) :
    (List.range p).foldl (innerBody c j ii) s =
      { s with
        aPos := s.aPos + p * c.w,
        outS := s.outS ++ (List.range (p * c.w)).map (fun t =>
          c.aS.getD (s.aPos + t) 0 + s.xBuf t * s.yBuf ii * c.alpha),
        reuseReads := s.reuseReads + (if j = 0 then 0 else p) } := by
  induction p with
  | zero =>
    refine EngSt.ext ?_ ?_ ?_ ?_ ?_ ?_ ?_
    · rfl
    · rfl
    · simp
    · rfl
    · rfl
    · simp
    · simp
  | succ p ih =>
    rw [List.range_succ, List.foldl_append, ih]
    simp only [List.foldl_cons, List.foldl_nil]
    rw [innerBody_pos_eq c j ii p _ hii]
    have hsplit : (p + 1) * c.w = p * c.w + c.w := by ring
    refine EngSt.ext ?_ ?_ ?_ ?_ ?_ ?_ ?_
    · rfl
    · rfl
    · show s.aPos + p * c.w + c.w = s.aPos + (p + 1) * c.w
      omega
    · rfl
    · rfl
    · show s.outS ++ _ ++ _ = s.outS ++ _
      rw [hsplit, List.range_add, List.map_append, List.map_map,
        List.append_assoc]
      congr 2
      apply range_map_congr
      intro k hk
      simp only [Function.comp_apply, Nat.add_assoc]
    · show s.reuseReads + _ + _ = s.reuseReads + _
      rcases eq_or_ne j 0 with hj | hj <;> simp [hj] <;> omega

/-- One `ii` step in the Fill state (`j = 0`) at `ii = 0`: one `y` scalar
is popped into the buffer at index 0, one `x` tile slice sequence is
copied, and the tile row is computed with the freshly read `y` value. -/
theorem iiBody_fill_zero_eq (c : Cfg R) (s : EngSt R) :
    iiBody c 0 s 0 =
      { yPos := s.yPos + 1,
        xPos := s.xPos + c.q * c.w,
        aPos := s.aPos + c.q * c.w,
        yBuf := Function.update s.yBuf 0 (c.yS.getD s.yPos 0),
        xBuf := fun ch => if ch < c.q * c.w then c.xS.getD (s.xPos + ch) 0
          else s.xBuf ch,
        outS := s.outS ++ (List.range (c.q * c.w)).map (fun t =>
          c.aS.getD (s.aPos + t) 0 + c.xS.getD (s.xPos + t) 0
            * c.yS.getD s.yPos 0 * c.alpha),
        reuseReads := s.reuseReads } := by
  unfold iiBody
  simp only [reduceIte]
  rw [innerFold0_eq]
  refine EngSt.ext ?_ ?_ ?_ ?_ ?_ ?_ ?_
  · rfl
  · rfl
  · rfl
  · rfl
  · rfl
  · show s.outS ++ _ = s.outS ++ _
    congr 1
  · show s.reuseReads + 0 = s.reuseReads
    omega

/-- One `ii` step in the Fill state (`j = 0`) at `ii ≠ 0`: one `y` scalar
is popped into the buffer at index `ii`, no `x`-stream read occurs, and
the tile row is computed from the retained `x_buf` and the freshly read
`y` value. -/
theorem iiBody_fill_pos_eq (c : Cfg R) (s : EngSt R) (ii : Nat) (hii : ii ≠ 0) :
    iiBody c 0 s ii =
      { yPos := s.yPos + 1,
        xPos := s.xPos,
        aPos := s.aPos + c.q * c.w,
        yBuf := Function.update s.yBuf ii (c.yS.getD s.yPos 0),
        xBuf := s.xBuf,
        outS := s.outS ++ (List.range (c.q * c.w)).map (fun t =>
          c.aS.getD (s.aPos + t) 0 + s.xBuf t * c.yS.getD s.yPos 0
            * c.alpha),
        reuseReads := s.reuseReads } := by
  unfold iiBody
  simp only [reduceIte]
  rw [innerFoldPos_eq c 0 ii _ c.q hii]
  refine EngSt.ext ?_ ?_ ?_ ?_ ?_ ?_ ?_
  · rfl
  · rfl
  · rfl
  · rfl
  · rfl
  · show s.outS ++ _ = s.outS ++ _
    congr 1
    apply range_map_congr
    intro t ht
    show c.aS.getD (s.aPos + t) 0 + s.xBuf t
        * Function.update s.yBuf ii (c.yS.getD s.yPos 0) ii * c.alpha = _
    rw [Function.update_same]
  · show s.reuseReads + 0 = s.reuseReads
    omega

/-- One `ii` step in the Reuse state (`j ≠ 0`) at `ii = 0`: no `y`-stream
read; one `x` tile slice sequence is copied; the buffered `y` at index 0
feeds the compute tasklet, counted as `q` Reuse-state buffer reads. -/
theorem iiBody_reuse_zero_eq (c : Cfg R) (j : Nat) (s : EngSt R) (hj : j ≠ 0) :
    iiBody c j s 0 =
      { yPos := s.yPos,
        xPos := s.xPos + c.q * c.w,
        aPos := s.aPos + c.q * c.w,
        yBuf := s.yBuf,
        xBuf := fun ch => if ch < c.q * c.w then c.xS.getD (s.xPos + ch) 0
          else s.xBuf ch,
        outS := s.outS ++ (List.range (c.q * c.w)).map (fun t =>
          c.aS.getD (s.aPos + t) 0 + c.xS.getD (s.xPos + t) 0 * s.yBuf 0
            * c.alpha),
        reuseReads := s.reuseReads + c.q } := by
  unfold iiBody
  rw [if_neg hj, innerFold0_eq]
  refine EngSt.ext ?_ ?_ ?_ ?_ ?_ ?_ ?_
  · rfl
  · rfl
  · rfl
  · rfl
  · rfl
  · rfl
  · show s.reuseReads + _ = s.reuseReads + c.q
    rw [if_neg hj]

/-- One `ii` step in the Reuse state (`j ≠ 0`) at `ii ≠ 0`: no stream
read at all; the retained `x_buf` and buffered `y` at index `ii` feed the
compute tasklet, counted as `q` Reuse-state buffer reads. -/
theorem iiBody_reuse_pos_eq (c : Cfg R) (j ii : Nat) (s : EngSt R)
    (hj : j ≠ 0) (hii : ii ≠ 0) :
    iiBody c j s ii =
      { s with
        aPos := s.aPos + c.q * c.w,
        outS := s.outS ++ (List.range (c.q * c.w)).map (fun t =>
          c.aS.getD (s.aPos + t) 0 + s.xBuf t * s.yBuf ii * c.alpha),
        reuseReads := s.reuseReads + c.q } := by
  unfold iiBody
  rw [if_neg hj, innerFoldPos_eq c j ii _ c.q hii]
  refine EngSt.ext ?_ ?_ ?_ ?_ ?_ ?_ ?_
  · rfl
  · rfl
  · rfl
  · rfl
  · rfl
  · rfl
  · show s.reuseReads + _ = s.reuseReads + c.q
    rw [if_neg hj]

/-- Closed form of the `ii` fold in the Fill state (`j = 0`): `p` scalars
of `y` are popped into buffer slots `0..p-1`, the `x` tile is copied once
(at `ii = 0`), `p` tile rows of `A` are consumed, and each emitted value
at row `ii`, offset `t` is `A + x[t] * y[ii] * alpha` with the y value
read during this same fill. -/
theorem iiFoldFill_eq (c : Cfg R) (s : EngSt R) (p : Nat) :
    (List.range p).foldl (iiBody c 0) s =
      { yPos := s.yPos + p,
        xPos := s.xPos + (if p = 0 then 0 else c.q * c.w),
        aPos := s.aPos + p * (c.q * c.w),
        yBuf := fun ch => if ch < p then c.yS.getD (s.yPos + ch) 0
          else s.yBuf ch,
        xBuf := fun ch => if p = 0 then s.xBuf ch
          else if ch < c.q * c.w then c.xS.getD (s.xPos + ch) 0
            else s.xBuf ch,
        outS := s.outS ++ (List.range p).flatMap (fun ii =>
          (List.range (c.q * c.w)).map (fun t =>
            c.aS.getD (s.aPos + ii * (c.q * c.w) + t) 0
              + c.xS.getD (s.xPos + t) 0 * c.yS.getD (s.yPos + ii) 0
                * c.alpha)),
        reuseReads := s.reuseReads } := by
  induction p with
  | zero =>
    refine EngSt.ext ?_ ?_ ?_ ?_ ?_ ?_ ?_
    · simp
    · simp
    · simp
    · funext ch
      simp
    · funext ch
      simp
    · simp
    · simp
  | succ p ih =>
    rw [List.range_succ, List.foldl_append, ih]
    simp only [List.foldl_cons, List.foldl_nil]
    rcases eq_or_ne p 0 with hp | hp
    · subst hp
      rw [iiBody_fill_zero_eq]
      simp only []
      rw [EngSt.mk.injEq]
      refine ⟨by omega, by simp, by ring, ?_, ?_, ?_, rfl⟩
      · funext ch
        rcases eq_or_ne ch 0 with hc | hc
        · subst hc
          rw [Function.update_same, if_pos (by omega)]
        · rw [Function.update_noteq hc, if_neg (by omega),
            if_neg (by omega)]
      · funext ch
        simp
      · simp only [List.range_zero, List.flatMap_nil, List.append_nil,
          List.nil_append, List.flatMap_cons, List.flatMap_append]
        congr 1
    · rw [iiBody_fill_pos_eq c _ p hp]
      have hsplit : (p + 1) * (c.q * c.w) = p * (c.q * c.w) + c.q * c.w := by
        ring
      simp only []
      rw [EngSt.mk.injEq]
      refine ⟨by omega, ?_, by omega, ?_, ?_, ?_, rfl⟩
      · rw [if_neg hp, if_neg (Nat.succ_ne_zero p)]
      · funext ch
        rcases eq_or_ne ch p with hc | hc
        · subst hc
          rw [Function.update_same, if_pos (by omega)]
        · rw [Function.update_noteq hc]
          rcases Nat.lt_or_ge ch p with h2 | h2
          · rw [if_pos h2, if_pos (by omega)]
          · rw [if_neg (by omega), if_neg (by omega)]
      · funext ch
        rw [if_neg hp, if_neg (Nat.succ_ne_zero p)]
      · rw [List.flatMap_append, List.flatMap_cons, List.flatMap_nil,
          List.append_nil, ← List.append_assoc]
        congr 1
        apply range_map_congr
        intro t ht
        rw [if_neg hp, if_pos ht]

/-- Closed form of the `ii` fold in the Reuse state (`j ≠ 0`): the `y`
cursor and buffer are untouched; the `x` tile is re-read once (at
`ii = 0`); each emitted value at row `ii`, offset `t` is
`A + x[t] * yBuf[ii] * alpha` with `yBuf` the retained buffer; `q`
Reuse-state buffer reads are counted per row. -/
theorem iiFoldReuse_eq (c : Cfg R) (j : Nat) (s : EngSt R) (p : Nat)
    (hj : j ≠ 0) :
    (List.range p).foldl (iiBody c j) s =
      { yPos := s.yPos,
        xPos := s.xPos + (if p = 0 then 0 else c.q * c.w),
        aPos := s.aPos + p * (c.q * c.w),
        yBuf := s.yBuf,
        xBuf := fun ch => if p = 0 then s.xBuf ch
          else if ch < c.q * c.w then c.xS.getD (s.xPos + ch) 0
            else s.xBuf ch,
        outS := s.outS ++ (List.range p).flatMap (fun ii =>
          (List.range (c.q * c.w)).map (fun t =>
            c.aS.getD (s.aPos + ii * (c.q * c.w) + t) 0
              + c.xS.getD (s.xPos + t) 0 * s.yBuf ii * c.alpha)),
        reuseReads := s.reuseReads + p * c.q } := by
  induction p with
  | zero =>
    refine EngSt.ext ?_ ?_ ?_ ?_ ?_ ?_ ?_
    · simp
    · simp
    · simp
    · funext ch
      simp
    · funext ch
      simp
    · simp
    · simp
  | succ p ih =>
    rw [List.range_succ, List.foldl_append, ih]
    simp only [List.foldl_cons, List.foldl_nil]
    rcases eq_or_ne p 0 with hp | hp
    · subst hp
      rw [iiBody_reuse_zero_eq c j _ hj]
      simp only []
      rw [EngSt.mk.injEq]
      refine ⟨rfl, by simp, by ring, rfl, ?_, ?_, by ring⟩
      · funext ch
        simp
      · simp only [List.range_zero, List.flatMap_nil, List.append_nil,
          List.nil_append, List.flatMap_cons, List.flatMap_append]
        congr 1
    · rw [iiBody_reuse_pos_eq c j p _ hj hp]
      have hsplit : (p + 1) * (c.q * c.w) = p * (c.q * c.w) + c.q * c.w := by
        ring
      have hsplitq : (p + 1) * c.q = p * c.q + c.q := by ring
      simp only []
      rw [EngSt.mk.injEq]
      refine ⟨rfl, ?_, by omega, rfl, ?_, ?_, by omega⟩
      · rw [if_neg hp, if_neg (Nat.succ_ne_zero p)]
      · funext ch
        rw [if_neg hp, if_neg (Nat.succ_ne_zero p)]
      · rw [List.flatMap_append, List.flatMap_cons, List.flatMap_nil,
          List.append_nil, ← List.append_assoc]
        congr 1
        apply range_map_congr
        intro t ht
        rw [if_neg hp, if_pos ht]

/-- The Reuse-state tail of one row-block: `t` column-tile iterations at
indices `1, 2, ..., t`. -/
def reuseRun (c : Cfg R) (s : EngSt R) (t : Nat) : EngSt R :=
  (List.range t).foldl (fun s2 j => jBody c s2 j.succ) s

theorem reuseRun_succ (c : Cfg R) (s : EngSt R) (t : Nat) :
    reuseRun c s (t + 1) = jBody c (reuseRun c s t) t.succ := by
  unfold reuseRun
  rw [List.range_succ, List.foldl_append, List.foldl_cons, List.foldl_nil]

/-- The Fill column-tile (`j = 0`) of one row-block: `nT` scalars of `y`
enter the buffer, the first `x` tile is read, `nT` tile rows are computed
with the freshly filled buffer values. -/
theorem jBody_zero_eq (c : Cfg R) (s : EngSt R) :
    jBody c s 0 =
      { yPos := s.yPos + c.nT,
        xPos := s.xPos + (if c.nT = 0 then 0 else c.q * c.w),
        aPos := s.aPos + c.nT * (c.q * c.w),
        yBuf := fun ch => if ch < c.nT then c.yS.getD (s.yPos + ch) 0
          else s.yBuf ch,
        xBuf := fun ch => if c.nT = 0 then s.xBuf ch
          else if ch < c.q * c.w then c.xS.getD (s.xPos + ch) 0
            else s.xBuf ch,
        outS := s.outS ++ (List.range c.nT).flatMap (fun ii =>
          (List.range (c.q * c.w)).map (fun t =>
            c.aS.getD (s.aPos + ii * (c.q * c.w) + t) 0
              + c.xS.getD (s.xPos + t) 0 * c.yS.getD (s.yPos + ii) 0
                * c.alpha)),
        reuseReads := s.reuseReads } := by
  unfold jBody
  exact iiFoldFill_eq c s c.nT

/-- Projections of the Reuse-state tail: the `y` cursor and buffer are
untouched across all reuse column-tiles; each tile re-reads one `x` tile
and one `A` tile and emits one result tile computed from the retained
buffer. -/
theorem reuseRun_spec (c : Cfg R) (s : EngSt R) (t : Nat) (hnT : c.nT ≠ 0) :
    (reuseRun c s t).yPos = s.yPos
    ∧ (reuseRun c s t).yBuf = s.yBuf
    ∧ (reuseRun c s t).xPos = s.xPos + t * (c.q * c.w)
    ∧ (reuseRun c s t).aPos = s.aPos + t * (c.nT * (c.q * c.w))
    ∧ (reuseRun c s t).outS = s.outS ++ (List.range t).flatMap (fun j =>
        (List.range c.nT).flatMap (fun ii =>
          (List.range (c.q * c.w)).map (fun t2 =>
            c.aS.getD (s.aPos + j * (c.nT * (c.q * c.w)) + ii * (c.q * c.w)
                + t2) 0
              + c.xS.getD (s.xPos + j * (c.q * c.w) + t2) 0 * s.yBuf ii
                * c.alpha)))
    ∧ (reuseRun c s t).reuseReads = s.reuseReads + t * (c.nT * c.q) := by
  induction t with
  | zero =>
    refine ⟨rfl, rfl, by simp [reuseRun], by simp [reuseRun], ?_, ?_⟩
    · simp [reuseRun]
    · simp [reuseRun]
  | succ t ih =>
    obtain ⟨h1, h2, h3, h4, h5, h6⟩ := ih
    have hsx : (t + 1) * (c.q * c.w) = t * (c.q * c.w) + c.q * c.w := by
      ring
    have hsa : (t + 1) * (c.nT * (c.q * c.w))
        = t * (c.nT * (c.q * c.w)) + c.nT * (c.q * c.w) := by ring
    have hsr : (t + 1) * (c.nT * c.q) = t * (c.nT * c.q) + c.nT * c.q := by
      ring
    rw [reuseRun_succ]
    unfold jBody
    rw [iiFoldReuse_eq c t.succ _ c.nT (Nat.succ_ne_zero t)]
    refine ⟨?_, ?_, ?_, ?_, ?_, ?_⟩
    · simp only []
      exact h1
    · simp only []
      exact h2
    · simp only []
      rw [if_neg hnT, h3]
      omega
    · simp only []
      rw [h4]
      omega
    · simp only []
      rw [h5, h4, h3, h2]
      rw [List.range_succ, List.flatMap_append, List.flatMap_cons,
        List.flatMap_nil, List.append_nil, ← List.append_assoc]
    · simp only []
      rw [h6]
      omega

theorem iBody_decompose (c : Cfg R) (s : EngSt R) (hmB : c.mB ≠ 0) :
    iBody c s = reuseRun c (jBody c s 0) (c.mB - 1) := by
  unfold iBody reuseRun
  obtain ⟨k, hk⟩ : ∃ k, c.mB = k + 1 := ⟨c.mB - 1, by omega⟩
  rw [hk]
  simp only [Nat.add_sub_cancel]
  rw [List.range_succ_eq_map, List.foldl_cons, List.foldl_map]

/-- Projections of one complete row-block (`iBody`): the `y` cursor
advances by `nT` scalars (all read during the Fill tile), the buffer holds
exactly this row-block's `y` slice afterwards, `mB` tiles of `x` and
`mB * nT` tile rows of `A` are consumed, the emitted values compute
`A + x * y * alpha` at matching stream offsets, and `(mB - 1) * nT * q`
Reuse-state buffer reads are counted. -/
theorem iBody_spec (c : Cfg R) (s : EngSt R) (hnT : c.nT ≠ 0) (hmB : c.mB ≠ 0) :
    (iBody c s).yPos = s.yPos + c.nT
    ∧ (iBody c s).yBuf = (fun ch => if ch < c.nT
        then c.yS.getD (s.yPos + ch) 0 else s.yBuf ch)
    ∧ (iBody c s).xPos = s.xPos + c.mB * (c.q * c.w)
    ∧ (iBody c s).aPos = s.aPos + c.mB * (c.nT * (c.q * c.w))
    ∧ (iBody c s).outS = s.outS ++ (List.range c.mB).flatMap (fun j =>
        (List.range c.nT).flatMap (fun ii =>
          (List.range (c.q * c.w)).map (fun t2 =>
            c.aS.getD (s.aPos + j * (c.nT * (c.q * c.w)) + ii * (c.q * c.w)
                + t2) 0
              + c.xS.getD (s.xPos + j * (c.q * c.w) + t2) 0
                * c.yS.getD (s.yPos + ii) 0 * c.alpha)))
    ∧ (iBody c s).reuseReads = s.reuseReads + (c.mB - 1) * (c.nT * c.q) := by
  obtain ⟨k, hk⟩ : ∃ k, c.mB = k + 1 := ⟨c.mB - 1, by omega⟩
  rw [iBody_decompose c s hmB, jBody_zero_eq]
  obtain ⟨h1, h2, h3, h4, h5, h6⟩ := reuseRun_spec c _ (c.mB - 1) hnT
  refine ⟨?_, ?_, ?_, ?_, ?_, ?_⟩
  · rw [h1]
  · rw [h2]
  · rw [h3]
    simp only []
    rw [if_neg hnT, hk]
    simp only [Nat.add_sub_cancel]
    ring
  · rw [h4]
    simp only []
    rw [hk]
    simp only [Nat.add_sub_cancel]
    ring
  · rw [h5]
    simp only []
    rw [if_neg hnT, hk]
    simp only [Nat.add_sub_cancel]
    rw [List.range_succ_eq_map, List.flatMap_cons, List.flatMap_map,
      ← List.append_assoc]
    congr 1
    · congr 1
      apply range_flatMap_congr
      intro ii hii
      apply range_map_congr
      intro t2 ht2
      have e1 : s.aPos + 0 * (c.nT * (c.q * c.w)) + ii * (c.q * c.w) + t2
          = s.aPos + ii * (c.q * c.w) + t2 := by ring
      have e2 : s.xPos + 0 * (c.q * c.w) + t2 = s.xPos + t2 := by ring
      rw [e1, e2]
    · apply range_flatMap_congr
      intro j hj
      apply range_flatMap_congr
      intro ii hii
      apply range_map_congr
      intro t2 ht2
      rw [if_pos hii]
      have e1 : s.aPos + c.nT * (c.q * c.w)
            + j * (c.nT * (c.q * c.w)) + ii * (c.q * c.w) + t2
          = s.aPos + Nat.succ j * (c.nT * (c.q * c.w)) + ii * (c.q * c.w)
            + t2 := by
        have : Nat.succ j = j + 1 := rfl
        rw [this]
        ring
      have e2 : s.xPos + c.q * c.w + j * (c.q * c.w) + t2
          = s.xPos + Nat.succ j * (c.q * c.w) + t2 := by
        have : Nat.succ j = j + 1 := rfl
        rw [this]
        ring
      rw [← e1, ← e2]
  · rw [h6]

theorem engineBlocks_succ (c : Cfg R) (k : Nat) :
    engineBlocks c (k + 1) = iBody c (engineBlocks c k) := by
  unfold engineBlocks
  rw [List.range_succ, List.foldl_append, List.foldl_cons, List.foldl_nil]

/-- Projections of the engine state after `k` complete row-blocks:
`k * nT` scalars of `y`, `k * mB` tiles of `x` and `k * mB * nT` tile rows
of `A` have been consumed; the output stream holds, in row-tile order, the
values `A + x * y * alpha` addressed at the stream offsets of the
three-level tiling; `k * (mB - 1) * nT * q` Reuse-state buffer reads have
occurred. -/
theorem engineBlocks_spec (c : Cfg R) (k : Nat) (hnT : c.nT ≠ 0)
    (hmB : c.mB ≠ 0) :
    (engineBlocks c k).yPos = k * c.nT
    ∧ (engineBlocks c k).xPos = k * (c.mB * (c.q * c.w))
    ∧ (engineBlocks c k).aPos = k * (c.mB * (c.nT * (c.q * c.w)))
    ∧ (engineBlocks c k).outS = (List.range k).flatMap (fun i =>
        (List.range c.mB).flatMap (fun j =>
          (List.range c.nT).flatMap (fun ii =>
            (List.range (c.q * c.w)).map (fun t2 =>
              c.aS.getD (i * (c.mB * (c.nT * (c.q * c.w)))
                  + j * (c.nT * (c.q * c.w)) + ii * (c.q * c.w) + t2) 0
                + c.xS.getD (i * (c.mB * (c.q * c.w)) + j * (c.q * c.w)
                    + t2) 0
                  * c.yS.getD (i * c.nT + ii) 0 * c.alpha))))
    ∧ (engineBlocks c k).reuseReads = k * ((c.mB - 1) * (c.nT * c.q)) := by
  induction k with
  | zero =>
    refine ⟨by simp [engineBlocks, engInit], by simp [engineBlocks, engInit],
      by simp [engineBlocks, engInit], by simp [engineBlocks, engInit],
      by simp [engineBlocks, engInit]⟩
  | succ k ih =>
    obtain ⟨ih1, ih2, ih3, ih4, ih5⟩ := ih
    obtain ⟨g1, g2, g3, g4, g5, g6⟩ :=
      iBody_spec c (engineBlocks c k) hnT hmB
    rw [engineBlocks_succ]
    refine ⟨?_, ?_, ?_, ?_, ?_⟩
    · rw [g1, ih1]
      ring
    · rw [g3, ih2]
      ring
    · rw [g4, ih3]
      ring
    · rw [g5, ih4, ih3, ih2, ih1]
      rw [List.range_succ, List.flatMap_append, List.flatMap_cons,
        List.flatMap_nil, List.append_nil]
    · rw [g6, ih5]
      ring

theorem blockTiles_zero (c : Cfg R) (i : Nat) :
    blockTiles c i 0 = engineBlocks c i := rfl

theorem blockTiles_decompose (c : Cfg R) (i j : Nat) (hj : j ≠ 0) :
    blockTiles c i j = reuseRun c (jBody c (engineBlocks c i) 0) (j - 1) := by
  unfold blockTiles reuseRun
  obtain ⟨k, hk⟩ : ∃ k, j = k + 1 := ⟨j - 1, by omega⟩
  rw [hk]
  simp only [Nat.add_sub_cancel]
  rw [List.range_succ_eq_map, List.foldl_cons, List.foldl_map]

/-! ### Stream indexing -/

theorem tileSerialize_length (nB mB nT mT : Nat) (A : Nat → Nat → R) :
    (tileSerialize nB mB nT mT A).length = nB * (mB * (nT * mT)) := by
  unfold tileSerialize
  apply length_flatMap_const
  intro i hi
  apply length_flatMap_const
  intro j hj
  apply length_flatMap_const
  intro ii hii
  simp

theorem tileSerialize_getD (nB mB nT mT : Nat) (A : Nat → Nat → R)
    (i j ii t : Nat) (hi : i < nB) (hj : j < mB) (hii : ii < nT)
    (ht : t < mT) :
    (tileSerialize nB mB nT mT A).getD
        (i * (mB * (nT * mT)) + (j * (nT * mT) + (ii * mT + t))) 0
      = A (i * nT + ii) (j * mT + t) := by
  unfold tileSerialize
  rw [getD_flatMap_const nB (mB * (nT * mT)) _ ?_ i _ hi
    (encode_lt hj (encode_lt hii ht))]
  · rw [getD_flatMap_const mB (nT * mT) _ ?_ j _ hj (encode_lt hii ht)]
    · rw [getD_flatMap_const nT mT _ ?_ ii _ hii ht]
      · exact getD_range_map mT _ t ht
      · intro a ha
        simp
    · intro a ha
      apply length_flatMap_const
      intro b hb
      simp
  · intro a ha
    apply length_flatMap_const
    intro b hb
    apply length_flatMap_const
    intro d hd
    simp

theorem repeatStream_length (k : Nat) (x : List R) :
    (repeatStream k x).length = k * x.length := by
  unfold repeatStream
  apply length_flatMap_const
  intro i hi
  rfl

theorem repeatStream_getD (k : Nat) (x : List R) (i cl : Nat)
    (hi : i < k) (hc : cl < x.length) :
    (repeatStream k x).getD (i * x.length + cl) 0 = x.getD cl 0 := by
  unfold repeatStream
  rw [getD_flatMap_const k x.length _ (fun a ha => rfl) i cl hi hc]

/-- The value of the engine's output stream at the position of iteration
(`i`, `j`, `ii`, `t2`): the compute tasklet's result
`A + x * y * alpha` with the three input streams addressed at the tiled
offsets. -/
theorem engineOut_getD (c : Cfg R) (hnT : c.nT ≠ 0) (hmB : c.mB ≠ 0)
    (i j ii t2 : Nat) (hi : i < c.nB) (hj : j < c.mB) (hii : ii < c.nT)
    (ht : t2 < c.q * c.w) :
    (engineRun c).outS.getD
        (i * (c.mB * (c.nT * (c.q * c.w))) + (j * (c.nT * (c.q * c.w))
          + (ii * (c.q * c.w) + t2))) 0
      = c.aS.getD (i * (c.mB * (c.nT * (c.q * c.w)))
            + j * (c.nT * (c.q * c.w)) + ii * (c.q * c.w) + t2) 0
          + c.xS.getD (i * (c.mB * (c.q * c.w)) + j * (c.q * c.w) + t2) 0
            * c.yS.getD (i * c.nT + ii) 0 * c.alpha := by
  obtain ⟨h1, h2, h3, h4, h5⟩ := engineBlocks_spec c c.nB hnT hmB
  unfold engineRun
  rw [h4]
  rw [getD_flatMap_const c.nB (c.mB * (c.nT * (c.q * c.w))) _ ?_ i _ hi
    (encode_lt hj (encode_lt hii ht))]
  · rw [getD_flatMap_const c.mB (c.nT * (c.q * c.w)) _ ?_ j _ hj
      (encode_lt hii ht)]
    · rw [getD_flatMap_const c.nT (c.q * c.w) _ ?_ ii _ hii ht]
      · exact getD_range_map (c.q * c.w) _ t2 ht
      · intro a ha
        simp
    · intro a ha
      apply length_flatMap_const
      intro b hb
      simp
  · intro a ha
    apply length_flatMap_const
    intro b hb
    apply length_flatMap_const
    intro d hd
    simp

/-! ### Claim theorems -/

theorem mulProgram_eq [DecidableEq R] (alpha xv yv : R) :
    mulProgram alpha xv yv = alpha * xv * yv := by
  unfold mulProgram
  split
  · rename_i h
    rw [h, one_mul]
  · rfl

/-- C2: for the concrete scenario `n=4, m=4, rowTile=2, colTile=2,
vecWidth=1, alpha=1`, `x=[1,2,3,4]`, `y=[1,1,1,1]`, `A` the zero matrix,
the tiled streaming engine emits the row-tiled serialization of the matrix
whose every row equals `x`, and the de-serialized entry at row `r`,
column `cl` equals `x[cl]` for all `r, cl < 4`. -/
theorem C2_concrete_rows_equal_x :
    (gerEngine 4 4 2 2 1 1 (List.replicate 4 (1 : ℤ))
        (repeatStream 2 [1, 2, 3, 4])
        (tileSerialize 2 2 2 2 (fun _ _ => 0))).outS
      = [1, 2, 1, 2, 3, 4, 3, 4, 1, 2, 1, 2, 3, 4, 3, 4]
    ∧ ∀ r : Nat, r < 4 → ∀ cl : Nat, cl < 4 →
        (gerEngine 4 4 2 2 1 1 (List.replicate 4 (1 : ℤ))
            (repeatStream 2 [1, 2, 3, 4])
            (tileSerialize 2 2 2 2 (fun _ _ => 0))).outS.getD
            (deserPos 2 2 2 r cl) 0
          = ([1, 2, 3, 4] : List ℤ).getD cl 0 := by
  constructor
  · decide
  · decide

theorem C2_witness :
    (gerEngine 4 4 2 2 1 1 (List.replicate 4 (1 : ℤ))
        (repeatStream 2 [1, 2, 3, 4])
        (tileSerialize 2 2 2 2 (fun _ _ => 0))).outS.getD
        (deserPos 2 2 2 0 1) 0
      = ([1, 2, 3, 4] : List ℤ).getD 1 0 :=
  C2_concrete_rows_equal_x.2 0 (by decide) 1 (by decide)

/-- C3: the broadcast selection of `ExpandGerPure.make_sdfg` is invoked on
`shape_c = (M, N)` (line 55), never on the shape of the supplied `_A`
operand, so for every `M`, `N` the full `(M, N)` indexing is selected and
the `ValueError` rejecting unsupported shapes is unreachable: no input is
ever broadcast or rejected. -/
theorem C3_broadcast_branch_dead (M N : Nat) :
    pureBroadcastChoice M N = Except.ok BroadcastIdx.full := by
  unfold pureBroadcastChoice pureShapeC broadcastMemletIdx
  rw [if_pos rfl]

/-- C4 counterexample: a node with three inputs of mutually inconsistent
shapes (`A` 2x3, `x` length 5, `y` length 7, output 9x9) passes
`Ger.validate` without any error, contradicting the claim that shape
mismatch across the accepted broadcasting forms is rejected. -/
theorem C4_counterexample :
    gerValidate [("_A", [2, 3]), ("_x", [5]), ("_y", [7])] [[9, 9]]
      = Except.ok () := rfl

/-- C4 amended: `Ger.validate` succeeds exactly when the node has three
inputs and one output; the extracted operand shapes are never compared
(every shape check in the source is commented out). -/
theorem C4_amended_arity_only (inEdges : List (String × List Nat))
    (outEdges : List (List Nat)) :
    gerValidate inEdges outEdges = Except.ok ()
      ↔ inEdges.length = 3 ∧ outEdges.length = 1 := by
  unfold gerValidate
  rcases eq_or_ne inEdges.length 3 with h1 | h1
  · rcases eq_or_ne outEdges.length 1 with h2 | h2
    · rw [if_neg (by omega), if_neg (by omega), if_neg (by omega)]
      simp [h1, h2]
    · rw [if_neg (by omega), if_pos (by omega)]
      simp [h2]
  · rw [if_pos (by omega)]
    simp [h1]

/-- C5: when the storage classes of `x` and `y` differ, the pure
expansion's pre-graph checks fail (with the dimension error or the storage
error, both raised before any graph construction); when the storage
classes match, the storage error is never raised. -/
theorem C5_storage_mismatch_fatal (shapeX shapeY : List Nat)
    (storX storY : Nat) :
    (storX ≠ storY → isErr (pureShapeChecks shapeX shapeY storX storY)
        = true)
    ∧ (storX = storY → pureShapeChecks shapeX shapeY storX storY
        ≠ Except.error PureErr.storageErr) := by
  constructor
  · intro hne
    unfold pureShapeChecks
    rcases eq_or_ne shapeX.length 1 with h1 | h1
    · rcases eq_or_ne shapeY.length 1 with h2 | h2
      · rw [if_neg (by omega), if_pos hne]
        rfl
      · rw [if_pos (by omega)]
        rfl
    · rw [if_pos (by omega)]
      rfl
  · intro heq
    unfold pureShapeChecks
    rcases eq_or_ne shapeX.length 1 with h1 | h1
    · rcases eq_or_ne shapeY.length 1 with h2 | h2
      · rw [if_neg (by omega), if_neg (by simp [heq])]
        simp
      · rw [if_pos (by omega)]
        simp
    · rw [if_pos (by omega)]
      simp

theorem C5_witness :
    isErr (pureShapeChecks [3] [4] 0 1) = true :=
  (C5_storage_mismatch_fatal [3] [4] 0 1).1 (by decide)

/-- C10: if `x` or `y` is supplied with more than one dimension, the pure
expansion raises the dimension error before any graph construction; for
one-dimensional `x` and `y` that error is never raised. -/
theorem C10_vector_dim_check (shapeX shapeY : List Nat)
    (storX storY : Nat) :
    (1 < shapeX.length ∨ 1 < shapeY.length →
      pureShapeChecks shapeX shapeY storX storY
        = Except.error PureErr.dimErr)
    ∧ (shapeX.length = 1 → shapeY.length = 1 →
      pureShapeChecks shapeX shapeY storX storY
        ≠ Except.error PureErr.dimErr) := by
  constructor
  · intro h
    unfold pureShapeChecks
    rw [if_pos (by omega)]
  · intro h1 h2
    unfold pureShapeChecks
    rw [if_neg (by omega)]
    rcases eq_or_ne storX storY with he | he
    · rw [if_neg (by simp [he])]
      simp
    · rw [if_pos he]
      simp

theorem C10_witness :
    pureShapeChecks [2, 2] [4] 0 0 = Except.error PureErr.dimErr :=
  (C10_vector_dim_check [2, 2] [4] 0 0).1 (by decide)

/-- C9: linearity of the pure rank-1 update in `alpha`: applying the
reference expansion with `alpha2` to the result of applying it with
`alpha1` (same `x`, `y`) equals one application with `alpha1 + alpha2`. -/
theorem C9_alpha_linearity [DecidableEq R] (alpha1 alpha2 : R) (x y : List R)
    (A : Nat → Nat → R) (i0 i1 : Nat) :
    gerPureRes alpha2 x y (fun i j => gerPureRes alpha1 x y A i j) i0 i1
      = gerPureRes (alpha1 + alpha2) x y A i0 i1 := by
  unfold gerPureRes gerPureTmp
  simp only [mulProgram_eq]
  ring

/-- C1 counterexample: with `n = m = 2`, unit tiles, `alpha = 1`,
`x = [1, 2]`, `y = [3, 4]` and `A = 0`, the de-serialized tiled engine
output at entry (0, 1) is `y[0] * x[1] = 6`, while the pure reference on
the same inputs gives `x[0] * y[1] = 4`: the two expansions bind `x` and
`y` to opposite matrix axes, so the claimed equality fails as stated. -/
theorem C1_counterexample :
    (gerEngine 2 2 1 1 1 (1 : ℤ) [3, 4] (repeatStream 2 [1, 2])
        (tileSerialize 2 2 1 1 (fun _ _ => 0))).outS.getD
        (deserPos 2 1 1 0 1) 0
      ≠ gerPureRes (1 : ℤ) [1, 2] [3, 4] (fun _ _ => 0) 0 1 := by
  decide

/-- C1 amended: for every valid configuration (`rowTile ∣ n`,
`colTile ∣ m`, `vecWidth ∣ colTile`, all positive) and matching input
lengths, the de-serialized output of the tiled streaming engine equals,
exactly (the model uses exact commutative-ring arithmetic, so the
`vecWidth`-lane reassociation tolerance degenerates to equality), the
whole-array pure reference expansion applied with the roles of `x` and
`y` exchanged: entry (`r`, `cl`) is `A[r][cl] + alpha * y[r] * x[cl]`,
i.e. `gerPureRes` with `y` in the row slot and `x` in the column slot. -/
theorem C1_amended_tiled_equals_swapped_pure [DecidableEq R]
    (n m nT mT w : Nat) (alpha : R) (x y : List R) (A : Nat → Nat → R)
    (hnT : 0 < nT) (hmT : 0 < mT) (hw : 0 < w)
    (hdn : nT ∣ n) (hdm : mT ∣ m) (hdw : w ∣ mT)
    (hx : x.length = m) (hy : y.length = n)
    (r cl : Nat) (hr : r < n) (hc : cl < m) :
    (gerEngine n m nT mT w alpha y (repeatStream (n / nT) x)
        (tileSerialize (n / nT) (m / mT) nT mT A)).outS.getD
        (deserPos (m / mT) nT mT r cl) 0
      = gerPureRes alpha y x A r cl := by
  have hqw : mT / w * w = mT := Nat.div_mul_cancel hdw
  have hnn : n / nT * nT = n := Nat.div_mul_cancel hdn
  have hmm2 : m / mT * mT = m := Nat.div_mul_cancel hdm
  have hi : r / nT < n / nT := by
    rw [Nat.div_lt_iff_lt_mul hnT, hnn]
    exact hr
  have hj : cl / mT < m / mT := by
    rw [Nat.div_lt_iff_lt_mul hmT, hmm2]
    exact hc
  have hii : r % nT < nT := Nat.mod_lt r hnT
  have ht : cl % mT < mT := Nat.mod_lt cl hmT
  have hrd : r / nT * nT + r % nT = r := by
    rw [Nat.mul_comm]
    exact Nat.div_add_mod r nT
  have hcd : cl / mT * mT + cl % mT = cl := by
    rw [Nat.mul_comm]
    exact Nat.div_add_mod cl mT
  have hidx : deserPos (m / mT) nT mT r cl
      = r / nT * (m / mT * (nT * (mT / w * w)))
        + (cl / mT * (nT * (mT / w * w))
          + (r % nT * (mT / w * w) + cl % mT)) := by
    unfold deserPos
    rw [hqw]
    ring
  have hmB0 : m / mT ≠ 0 := by
    intro h0
    rw [h0, Nat.zero_mul] at hmm2
    omega
  have hout := engineOut_getD
    ({ w := w, q := mT / w, nT := nT, mB := m / mT, nB := n / nT,
       alpha := alpha, yS := y, xS := repeatStream (n / nT) x,
       aS := tileSerialize (n / nT) (m / mT) nT mT A } : Cfg R)
    (show nT ≠ 0 by omega) (show m / mT ≠ 0 from hmB0)
    (r / nT) (cl / mT) (r % nT) (cl % mT)
    hi hj hii (show cl % mT < mT / w * w by rw [hqw]; exact ht)
  unfold gerEngine
  rw [hidx]
  refine hout.trans ?_
  simp only []
  have ha : r / nT * (m / mT * (nT * (mT / w * w)))
      + cl / mT * (nT * (mT / w * w)) + r % nT * (mT / w * w) + cl % mT
      = r / nT * (m / mT * (nT * mT))
        + (cl / mT * (nT * mT) + (r % nT * mT + cl % mT)) := by
    rw [hqw]
    ring
  rw [ha, tileSerialize_getD (n / nT) (m / mT) nT mT A _ _ _ _ hi hj hii ht]
  have hxi : r / nT * (m / mT * (mT / w * w)) + cl / mT * (mT / w * w)
      + cl % mT = r / nT * x.length + cl := by
    rw [hqw, hx]
    have hexp : r / nT * (m / mT * mT) = r / nT * m := by rw [hmm2]
    rw [hexp]
    omega
  rw [hxi, repeatStream_getD (n / nT) x (r / nT) cl hi (by rw [hx]; exact hc)]
  rw [show r / nT * nT + r % nT = r from hrd,
    show cl / mT * mT + cl % mT = cl from hcd]
  unfold gerPureRes gerPureTmp
  rw [mulProgram_eq]
  ring

theorem C1_amended_witness :
    (gerEngine 2 2 1 1 1 (1 : ℤ) [3, 4] (repeatStream 2 [1, 2])
        (tileSerialize 2 2 1 1 (fun _ _ => 0))).outS.getD
        (deserPos 2 1 1 0 1) 0
      = gerPureRes (1 : ℤ) [3, 4] [1, 2] (fun _ _ => 0) 0 1 :=
  C1_amended_tiled_equals_swapped_pure 2 2 1 1 1 (1 : ℤ) [1, 2] [3, 4]
    (fun _ _ => 0) (by decide) (by decide) (by decide) (by decide)
    (by decide) (by decide) (by decide) (by decide) 0 1 (by decide)
    (by decide)

/-- C6: the Fill/Reuse buffering protocol of the tiled engine. For every
row-block `i` and column-tile `j` of a valid run: processing column-tile
`j` pops `y`-stream scalars exactly when `j = 0` (then `rowTile` of them,
one per row index; none when `j ≠ 0`), and at every Reuse tile (`j ≠ 0`)
the buffer entry for row `ii` still holds the value written during the
Fill tile of the same row-block, namely `y[i * rowTile + ii]`. -/
theorem C6_fill_reuse_protocol (c : Cfg R) (i j : Nat)
    (hnT : 0 < c.nT) (hmB : 0 < c.mB) (hi : i < c.nB) (hj : j < c.mB) :
    (jBody c (blockTiles c i j) j).yPos
      = (blockTiles c i j).yPos + (if j = 0 then c.nT else 0)
    ∧ (j ≠ 0 → ∀ ii, ii < c.nT →
        (blockTiles c i j).yBuf ii = c.yS.getD (i * c.nT + ii) 0) := by
  constructor
  · rcases eq_or_ne j 0 with hj0 | hj0
    · subst hj0
      rw [jBody_zero_eq]
      simp
    · unfold jBody
      rw [iiFoldReuse_eq c j _ c.nT hj0]
      simp only []
      rw [if_neg hj0]
      omega
  · intro hj0 ii hii
    rw [blockTiles_decompose c i j hj0]
    obtain ⟨g1, g2, g3, g4, g5, g6⟩ :=
      reuseRun_spec c (jBody c (engineBlocks c i) 0) (j - 1) (by omega)
    rw [g2, jBody_zero_eq]
    simp only []
    rw [if_pos hii]
    obtain ⟨e1, e2, e3, e4, e5⟩ := engineBlocks_spec c i (by omega) (by omega)
    rw [e1]

theorem C6_witness :
    (blockTiles (⟨1, 2, 2, 2, 2, 1, [3, 4, 5, 6], List.replicate 8 0,
        List.replicate 16 0⟩ : Cfg ℤ) 0 1).yBuf 0
      = ([3, 4, 5, 6] : List ℤ).getD (0 * 2 + 0) 0 :=
  (C6_fill_reuse_protocol _ 0 1 (by decide) (by decide) (by decide)
    (by decide)).2 (by decide) 0 (by decide)

/-- C7 counterexample: for `n = 4, m = 4, rowTile = 2, colTile = 2,
vecWidth = 1`, the engine pops 4 scalars from the `y` source stream, not
`n / rowTile = 2` as claimed, and performs 8 Reuse-state buffer reads in
total, not `(n / rowTile) * ((m / colTile - 1) * rowTile) = 4` as the
claimed per-row-block formula would give. -/
theorem C7_counterexample :
    (gerEngine 4 4 2 2 1 (1 : ℤ) (List.replicate 4 0) (List.replicate 8 0)
        (List.replicate 16 0)).yPos ≠ 4 / 2
    ∧ (gerEngine 4 4 2 2 1 (1 : ℤ) (List.replicate 4 0)
        (List.replicate 8 0) (List.replicate 16 0)).reuseReads
      ≠ 4 / 2 * ((4 / 2 - 1) * 2) := by
  constructor
  · decide
  · decide

/-- C7 amended: over one complete invocation with valid configuration the
engine pops exactly `n` scalars from the `y` source stream
(`rowTile` per row-block, i.e. `n / rowTile` Fill phases, independent of
`m / colTile`), and performs `(m / colTile - 1) * rowTile *
(colTile / vecWidth)` Reuse-state buffer reads per row-block (one per
`vecWidth`-wide slice; this equals the claimed `(m / colTile - 1) *
rowTile` only when `vecWidth = colTile`). -/
theorem C7_amended_read_counts (n m nT mT w : Nat) (alpha : R)
    (yS xS aS : List R) (hnT : 0 < nT) (hdn : nT ∣ n) (hmB : 0 < m / mT) :
    (gerEngine n m nT mT w alpha yS xS aS).yPos = n
    ∧ (gerEngine n m nT mT w alpha yS xS aS).reuseReads
      = n / nT * ((m / mT - 1) * (nT * (mT / w))) := by
  obtain ⟨e1, e2, e3, e4, e5⟩ := engineBlocks_spec
    ({ w := w, q := mT / w, nT := nT, mB := m / mT, nB := n / nT,
       alpha := alpha, yS := yS, xS := xS, aS := aS } : Cfg R)
    (n / nT) (show nT ≠ 0 by omega) (show m / mT ≠ 0 by omega)
  constructor
  · show (engineRun _).yPos = n
    unfold engineRun
    rw [e1]
    exact Nat.div_mul_cancel hdn
  · show (engineRun _).reuseReads = _
    unfold engineRun
    rw [e5]

theorem C7_amended_witness :
    (gerEngine 4 4 2 2 1 (1 : ℤ) (List.replicate 4 0) (List.replicate 8 0)
        (List.replicate 16 0)).yPos = 4 :=
  (C7_amended_read_counts 4 4 2 2 1 (1 : ℤ) (List.replicate 4 0)
    (List.replicate 8 0) (List.replicate 16 0) (by decide) (by decide)
    (by decide)).1

/-- C8: with `alpha = 0` and a valid configuration, the engine raises no
error (it is a total function), consumes its input streams in full (each
cursor ends at the corresponding stream length), emits the full `n * m`
element output stream, and that output equals the serialized input matrix
`A` element for element; the pure reference likewise returns `A`
unchanged. -/
theorem C8_alpha_zero_identity [DecidableEq R] (n m nT mT w : Nat)
    (x y : List R) (A : Nat → Nat → R)
    (hnT : 0 < nT) (hmT : 0 < mT) (hw : 0 < w)
    (hdn : nT ∣ n) (hdm : mT ∣ m) (hdw : w ∣ mT) (hm : 0 < m)
    (hx : x.length = m) (hy : y.length = n) :
    (gerEngine n m nT mT w (0 : R) y (repeatStream (n / nT) x)
        (tileSerialize (n / nT) (m / mT) nT mT A)).outS
      = tileSerialize (n / nT) (m / mT) nT mT A
    ∧ (gerEngine n m nT mT w (0 : R) y (repeatStream (n / nT) x)
        (tileSerialize (n / nT) (m / mT) nT mT A)).yPos = y.length
    ∧ (gerEngine n m nT mT w (0 : R) y (repeatStream (n / nT) x)
        (tileSerialize (n / nT) (m / mT) nT mT A)).xPos
      = (repeatStream (n / nT) x).length
    ∧ (gerEngine n m nT mT w (0 : R) y (repeatStream (n / nT) x)
        (tileSerialize (n / nT) (m / mT) nT mT A)).aPos
      = (tileSerialize (n / nT) (m / mT) nT mT A).length
    ∧ (gerEngine n m nT mT w (0 : R) y (repeatStream (n / nT) x)
        (tileSerialize (n / nT) (m / mT) nT mT A)).outS.length = n * m
    ∧ (∀ i0 i1, gerPureRes (0 : R) x y A i0 i1 = A i0 i1) := by
  have hqw : mT / w * w = mT := Nat.div_mul_cancel hdw
  have hnn : n / nT * nT = n := Nat.div_mul_cancel hdn
  have hmm2 : m / mT * mT = m := Nat.div_mul_cancel hdm
  have hmB0 : m / mT ≠ 0 := by
    intro h0
    rw [h0, Nat.zero_mul] at hmm2
    omega
  obtain ⟨e1, e2, e3, e4, e5⟩ := engineBlocks_spec
    ({ w := w, q := mT / w, nT := nT, mB := m / mT, nB := n / nT,
       alpha := (0 : R), yS := y, xS := repeatStream (n / nT) x,
       aS := tileSerialize (n / nT) (m / mT) nT mT A } : Cfg R)
    (n / nT) (show nT ≠ 0 by omega) (show m / mT ≠ 0 from hmB0)
  have houtS : (gerEngine n m nT mT w (0 : R) y (repeatStream (n / nT) x)
      (tileSerialize (n / nT) (m / mT) nT mT A)).outS
      = tileSerialize (n / nT) (m / mT) nT mT A := by
    show (engineRun _).outS = _
    unfold engineRun
    rw [e4]
    simp only []
    conv_rhs => rw [tileSerialize]
    rw [show mT / w * w = mT from hqw]
    apply range_flatMap_congr
    intro i hi
    apply range_flatMap_congr
    intro j hj
    apply range_flatMap_congr
    intro ii hii
    apply range_map_congr
    intro t ht
    rw [mul_zero, add_zero]
    rw [show i * (m / mT * (nT * mT)) + j * (nT * mT) + ii * mT + t
      = i * (m / mT * (nT * mT)) + (j * (nT * mT) + (ii * mT + t)) from by
        ring]
    exact tileSerialize_getD (n / nT) (m / mT) nT mT A i j ii t hi hj hii ht
  refine ⟨houtS, ?_, ?_, ?_, ?_, ?_⟩
  · show (engineRun _).yPos = y.length
    unfold engineRun
    rw [e1, hy]
    exact hnn
  · show (engineRun _).xPos = _
    unfold engineRun
    rw [e2, repeatStream_length, hx]
    simp only []
    rw [hqw, hmm2]
  · show (engineRun _).aPos = _
    unfold engineRun
    rw [e3, tileSerialize_length]
    simp only []
    rw [hqw]
  · rw [houtS, tileSerialize_length]
    rw [show n / nT * (m / mT * (nT * mT))
      = n / nT * nT * (m / mT * mT) from by ring]
    rw [hnn, hmm2]
  · intro i0 i1
    unfold gerPureRes gerPureTmp
    rw [mulProgram_eq]
    ring

theorem C8_witness :
    (gerEngine 1 1 1 1 1 (0 : ℤ) [7] (repeatStream 1 [5])
        (tileSerialize 1 1 1 1 (fun _ _ => 2))).outS
      = tileSerialize 1 1 1 1 (fun _ _ => 2) :=
  (C8_alpha_zero_identity 1 1 1 1 1 [5] [7] (fun _ _ => 2) (by decide)
    (by decide) (by decide) (by decide) (by decide) (by decide) (by decide)
    (by decide) (by decide)).1

end GerModel
